import Mathlib

/-!
# Verification of the ortholog resolution and enrichment pipeline

Shallow embedding of the core of `eweitz/homology`:
* `getOrthologMap`, `sortTargetGenes`, `enrichGene`, `enrichMap`, `isNumeric`,
  `getOrthoDBId` from `src/orthodb.js`;
* `parseAnnotFromMgiGene` from `src/lib.js` and `fetchLocations` from `src/oma.js`.

JavaScript objects used as string-keyed dictionaries are embedded as
association lists (`jsLookup` / `jsInsertKey` / `jsErase` reproduce property
read, property assignment and `delete`).  `Array.prototype.sort` is embedded
as the TimSort used by every engine able to parse this code (optional
chaining in `orthodb.js`, `replaceAll` in `lib.js`), specialised to arrays
shorter than 64 elements — the only arrays this code sorts — where the
minimum run length equals the array length, so the whole sort is one run
detection (reversing a strictly descending initial run) followed by binary
insertion of the remaining elements (`jsSort`), and no merge takes place;
comparator results that JavaScript coerces (booleans, `undefined`) are made
explicit at each call site.  Network calls are factored out: the response data
(SPARQL rows, MyGene.info hits, per-gene detail records) is passed to the
embedded functions as an argument.
-/

/-! String methods used by the embedded code, defined structurally over the
character list so that concrete witnesses evaluate inside the kernel (the
library versions use well-founded recursion, which does not reduce). -/

/-- `String.prototype.toLowerCase()`. -/
def String.jsLower (s : String) : String := String.mk (s.data.map Char.toLower)

/-- Character-list splitter behind `String.jsSplit`. -/
def List.jsSplitAux (sep : Char) : List Char → List Char → List (List Char)
  | [], acc => [acc.reverse]
  | c :: cs, acc =>
    if c = sep then acc.reverse :: List.jsSplitAux sep cs []
    else List.jsSplitAux sep cs (c :: acc)

/-- `String.prototype.split(sep)` for a one-character separator. -/
def String.jsSplit (s : String) (sep : Char) : List String :=
  (List.jsSplitAux sep s.data []).map String.mk

/-- `String.prototype.includes(c)` for a one-character needle. -/
def String.jsIncludes (s : String) (c : Char) : Bool := s.data.contains c

/-- `String.prototype.trim()`. -/
def String.jsTrim (s : String) : String :=
  String.mk (((s.data.dropWhile Char.isWhitespace).reverse.dropWhile
    Char.isWhitespace).reverse)

namespace Homology

/-! ## JavaScript object and array primitives -/

/-- Property read `m[k]` on an object embedded as an association list. -/
def jsLookup (m : List (String × α)) (k : String) : Option α :=
  match m with
  | [] => none
  | (k', v) :: rest => if k' = k then some v else jsLookup rest k

/-- Property assignment `m[k] = v`: overwrite in place, or append a new key. -/
def jsInsertKey (m : List (String × α)) (k : String) (v : α) : List (String × α) :=
  match m with
  | [] => [(k, v)]
  | (k', v') :: rest => if k' = k then (k, v) :: rest else (k', v') :: jsInsertKey rest k v

/-- `delete m[k]`: removes the (unique) binding of the key. -/
def jsErase (m : List (String × α)) (k : String) : List (String × α) :=
  match m with
  | [] => []
  | (k', v') :: rest => if k' = k then rest else (k', v') :: jsErase rest k

/-- Strictly-descending continuation of a run (TimSort `CountAndMakeRun`):
starting after `prev`, extend while the comparator answers negative on
(next, previous); returns the extension and the untouched remainder. -/
def descRun (cmp : α → α → Int) (prev : α) : List α → List α × List α
  | [] => ([], [])
  | x :: xs =>
    if cmp x prev < 0 then
      let p := descRun cmp x xs
      (x :: p.1, p.2)
    else ([], x :: xs)

/-- Weakly-ascending continuation of a run: extend while the comparator
answers non-negative on (next, previous). -/
def ascRun (cmp : α → α → Int) (prev : α) : List α → List α × List α
  | [] => ([], [])
  | x :: xs =>
    if cmp x prev ≥ 0 then
      let p := ascRun cmp x xs
      (x :: p.1, p.2)
    else ([], x :: xs)

/-- TimSort's `CountAndMakeRun`: the initial run is descending exactly when
the comparator answers negative on the second and first elements; a strictly
descending run is reversed in place.  Returns the run (now ascending) and
the remainder of the array. -/
def makeRun (cmp : α → α → Int) : List α → List α × List α
  | [] => ([], [])
  | [x] => ([x], [])
  | x :: y :: rest =>
    if cmp y x < 0 then
      let p := descRun cmp y rest
      ((x :: y :: p.1).reverse, p.2)
    else
      let p := ascRun cmp y rest
      (x :: y :: p.1, p.2)

/-- The binary search of TimSort's `BinaryInsertionSort`: locate the
insertion index of `pivot` in `arr[left..right)` by halving
(`mid = (left + right) >> 1`), moving `right` down to `mid` on a negative
comparator answer against the midpoint and `left` up to `mid + 1` otherwise.
The interval shrinks at every step, so `arr.length` steps of fuel always
reach the empty interval. -/
def binSearchAux (cmp : α → α → Int) (arr : List α) (pivot : α) :
    Nat → Nat → Nat → Nat
  | 0, left, _ => left
  | fuel + 1, left, right =>
    if left < right then
      let mid := (left + right) / 2
      if cmp pivot (arr.getD mid pivot) < 0 then binSearchAux cmp arr pivot fuel left mid
      else binSearchAux cmp arr pivot fuel (mid + 1) right
    else left

/-- One pivot step of `BinaryInsertionSort`: place `pivot` at the index the
binary search finds, shifting the tail right. -/
def binInsert (cmp : α → α → Int) (arr : List α) (pivot : α) : List α :=
  arr.take (binSearchAux cmp arr pivot arr.length 0 arr.length) ++
    pivot :: arr.drop (binSearchAux cmp arr pivot arr.length 0 arr.length)

/-- `BinaryInsertionSort` over the pending elements, left to right. -/
def binInsertAll (cmp : α → α → Int) : List α → List α → List α
  | arr, [] => arr
  | arr, x :: xs => binInsertAll cmp (binInsert cmp arr x) xs

/-- `Array.prototype.sort(cmp)` as a pure function: V8's TimSort on arrays
shorter than 64 elements (the only arrays this code sorts), where the
minimum run length equals the array length, so the sort is exactly one
`CountAndMakeRun` followed by `BinaryInsertionSort` of the remainder and no
merge takes place. -/
def jsSort (cmp : α → α → Int) (l : List α) : List α :=
  match l with
  | [] => []
  | [x] => [x]
  | x :: y :: rest =>
    let p := makeRun cmp (x :: y :: rest)
    binInsertAll cmp p.1 p.2

/-- JavaScript coercion of a boolean comparator result to a number. -/
def jsBoolInt (b : Bool) : Int := if b then 1 else 0

/-! ## Data model -/

/-- A gene record.  Target candidates are created as `{name, id}`; source
registry records are created as `{id}` (the unused `name` is left `""`).
`enrichGene` fills the optional protein-level fields. -/
structure Gene where
  name : String := ""
  id : String := ""
  ensemblId : Option String := none
  ncbiGeneId : Option String := none
  aas : Option Int := none
  exons : Option Int := none
  domains : Option (List String) := none
  deriving Repr, DecidableEq

/-- One SPARQL result row; each field holds the binding's `.value`. -/
structure SparqlResult where
  gene_s : String
  gene_s_name : String
  gene_t : String
  gene_t_name : String
  deriving Repr, DecidableEq

structure SparqlResults where
  bindings : List SparqlResult
  deriving Repr, DecidableEq

structure SparqlJson where
  results : SparqlResults
  deriving Repr, DecidableEq

/-- The three dictionaries built by `getOrthologMap`. -/
structure OrthoState where
  orthologMap : List (String × List Gene)
  seenTargetNames : List (String × List String)
  sources : List (String × Gene)
  deriving Repr, DecidableEq

/-- Per-gene detail record from the `ogdetails` endpoint.  `ensembl` and
`entrez` hold the lists of cross-reference ids (`.id` of each entry). -/
structure OgDetails where
  ensembl : Option (List String) := none
  entrez : Option (List String) := none
  aas : Option Int := none
  exons : Option Int := none
  interpro : Option (List String) := none
  deriving Repr, DecidableEq

/-! ## Embedded source functions: orthodb.js -/

/-- `getOrthoDBId` from orthodb.js:
`url.split('/').slice(-1)[0].split('_')`, then `[0] + '_' + [1] + ':' + [2]`.
A missing index yields the string `"undefined"`, as JavaScript concatenation
of `undefined` does. -/
def getOrthoDBId (url : String) : String :=
  let splitId := ((url.jsSplit '/').getLastD "").jsSplit '_'
  (splitId.getD 0 "undefined") ++ "_" ++ (splitId.getD 1 "undefined") ++ ":"
    ++ (splitId.getD 2 "undefined")

/-- `isNumeric` from orthodb.js: `!isNaN(parseFloat(n)) && isFinite(n)`.
Modelled on the decimal fragment these two tests agree on: true iff the
trimmed string is a nonempty optionally-signed decimal numeral (digits with at
most one point).  All strings this repository feeds to `isNumeric` (gene
symbols and digit-string internal identifiers) fall in this fragment. -/
def isNumeric (n : String) : Bool :=
  let t := n.jsTrim
  let t := if t.data.head? = some '+' ∨ t.data.head? = some '-' then String.mk (t.data.drop 1)
    else t
  match t.jsSplit '.' with
  | [a] => a ≠ "" && a.data.all Char.isDigit
  | [a, b] => (a ≠ "" || b ≠ "") && a.data.all Char.isDigit && b.data.all Char.isDigit
  | _ => false

/-- Target-name alias resolution inside `getOrthologMap` (orthodb.js,
`if (name.includes(';')) { ... }`).  When some alias is numeric, the first
non-numeric alias is used if it is truthy (a found empty string is falsy, so
it falls back to `splitName[0]`); otherwise the name list is sorted with the
boolean comparator `(a, b) => a.length < b.length` and the first element
taken — the boolean is coerced to `1`/`0` and never negative, so the sort
leaves the list in input order and the first alias is selected. -/
def selectTargetName (rawName : String) : String :=
  if rawName.jsIncludes ';' then
    let splitName := rawName.jsSplit ';'
    match splitName.find? (fun n => isNumeric n) with
    | some _ =>
      match splitName.find? (fun n => ¬ isNumeric n) with
      | some nonNumericName =>
        if nonNumericName ≠ "" then nonNumericName else splitName.headD ""
      | none => splitName.headD ""
    | none => (jsSort (fun a b => jsBoolInt (a.length < b.length)) splitName).headD ""
  else rawName

/-- Source-name resolution inside `getOrthologMap`: a semicolon-joined raw
source resolves to the queried gene contained in the alias list, or the row is
discarded (`none`). -/
def resolveSource (genes : List String) (rawSource : String) : Option String :=
  if rawSource.jsIncludes ';' then
    let rawSources := rawSource.jsSplit ';'
    genes.find? (fun gene => rawSources.contains gene)
  else some rawSource

/-- The case-canonicalization loop of `getOrthologMap`
(`genes.forEach(gene => { if (gene in orthologMap && gene !== source && ...) })`):
copy the accumulating lists of a case-insensitive duplicate query key over to
the row's source key and delete the duplicate. -/
def mergeStep (source : String) (st : OrthoState) (gene : String) : OrthoState :=
  if (jsLookup st.orthologMap gene).isSome ∧ gene ≠ source ∧
      gene.jsLower = source.jsLower then
    { st with
      orthologMap :=
        jsErase (jsInsertKey st.orthologMap source ((jsLookup st.orthologMap gene).getD [])) gene,
      seenTargetNames :=
        jsErase (jsInsertKey st.seenTargetNames source
          ((jsLookup st.seenTargetNames gene).getD [])) gene }
  else st

/-- `sources[source] = {id: sourceId}`. -/
def setSource (source sourceId : String) (st : OrthoState) : OrthoState :=
  { st with sources := jsInsertKey st.sources source { id := sourceId } }

/-- The deduplicated push at the end of the row loop:
`if (source in seenTargetNames && !seenTargetNames[source].includes(name))`
push `name` and `{name, id}` onto the two lists of the source key. -/
def pushTarget (source nm cid : String) (st : OrthoState) : OrthoState :=
  if (jsLookup st.seenTargetNames source).isSome ∧
      ¬ ((jsLookup st.seenTargetNames source).getD []).contains nm then
    { st with
      seenTargetNames :=
        jsInsertKey st.seenTargetNames source
          (((jsLookup st.seenTargetNames source).getD []) ++ [nm]),
      orthologMap :=
        jsInsertKey st.orthologMap source
          (((jsLookup st.orthologMap source).getD []) ++ [{ name := nm, id := cid }]) }
  else st

/-- Processing of one SPARQL result row by `getOrthologMap`: resolve the
source name (discarding the row on an alias miss), run the
case-canonicalization loop, record the source registry entry, then push the
resolved target candidate if unseen. -/
def processResult (genes : List String) (st : OrthoState) (result : SparqlResult) :
    OrthoState :=
  match resolveSource genes result.gene_s_name with
  | none => st
  | some source =>
    pushTarget source (selectTargetName result.gene_t_name) (getOrthoDBId result.gene_t)
      (setSource source (getOrthoDBId result.gene_s) (genes.foldl (mergeStep source) st))

/-- The initial dictionaries: every queried gene starts with an empty
candidate list and an empty seen-name list. -/
def initState (genes : List String) : OrthoState :=
  { orthologMap := genes.foldl (fun m g => jsInsertKey m g []) [],
    seenTargetNames := genes.foldl (fun m g => jsInsertKey m g []) [],
    sources := [] }

/-- `getOrthologMap(genes, sparqlJson)` from orthodb.js. -/
def getOrthologMap (genes : List String) (sparqlJson : SparqlJson) : OrthoState :=
  sparqlJson.results.bindings.foldl (processResult genes) (initState genes)

/-- The `a.domains?.length > 1` guard of the ranking comparator:
`undefined?.length > 1` is false. -/
def domGuard (g : Gene) : Prop :=
  match g.domains with
  | some l => l.length > 1
  | none => False

instance (g : Gene) : Decidable (domGuard g) := by
  unfold domGuard; split <;> infer_instance

/-- `Math.abs`. -/
def jsAbs (n : Int) : Int := if n < 0 then -n else n

/-- The comparator of `sortTargetGenes` (orthodb.js).  `sourceGeneLower` is
the already-lowercased source gene name.  JavaScript quirks made explicit:
falling off the end returns `undefined`, which sort coerces to `0`;
`a.exons == source.exons` is loose equality, under which two absent values
are equal; `source.domains.length` raises in JavaScript when the source has
no domain list — it is modelled as the length of the empty list, a value no
theorem below depends on. -/
def sortCompare (source : Gene) (sourceGeneLower : String) (a b : Gene) : Int :=
  if a.name.jsLower = sourceGeneLower then -1
  else if b.name.jsLower = sourceGeneLower then 1
  else if a.exons ≠ b.exons ∧ a.exons = source.exons then -1
  else if a.exons ≠ b.exons ∧ b.exons = source.exons then 1
  else if domGuard a ∧ domGuard b ∧
      a.name.jsLower ≠ sourceGeneLower ∧ b.name.jsLower ≠ sourceGeneLower then
    if ((a.domains.getD []).length : Int) = ((source.domains.getD []).length : Int) then -1
    else if ((b.domains.getD []).length : Int) = ((source.domains.getD []).length : Int) then 1
    else if jsAbs (((a.domains.getD []).length : Int) - ((source.domains.getD []).length : Int)) <
        jsAbs (((b.domains.getD []).length : Int) - ((source.domains.getD []).length : Int)) then -1
    else if jsAbs (((a.domains.getD []).length : Int) - ((source.domains.getD []).length : Int)) >
        jsAbs (((b.domains.getD []).length : Int) - ((source.domains.getD []).length : Int)) then 1
    else 0
  else 0

/-- `sortTargetGenes(targetGenes, sourceGene, sources)` from orthodb.js.
The `none` result models the `TypeError` JavaScript raises when the registry
has no record for the source gene and the comparator dereferences it. -/
def sortTargetGenes (targetGenes : List Gene) (sourceGene : String)
    (sources : List (String × Gene)) : Option (List Gene) :=
  (jsLookup sources sourceGene).map
    (fun source => jsSort (sortCompare source sourceGene.jsLower) targetGenes)

/-- `enrichGene(gene)` from orthodb.js, with the `ogdetails` response for
`gene.id` supplied by `details`.  `if (ogDetails.ensembl)` — any present list
is truthy; the code then reads `[0].id`, embedded as `head?`. -/
def enrichGene (details : String → OgDetails) (gene : Gene) : Gene :=
  let ogDetails := details gene.id
  let gene :=
    match ogDetails.ensembl with
    | some l => { gene with ensemblId := l.head? }
    | none => gene
  let gene :=
    match ogDetails.entrez with
    | some l => { gene with ncbiGeneId := l.head? }
    | none => gene
  { gene with
    aas := ogDetails.aas
    exons := ogDetails.exons
    domains := ogDetails.interpro }

/-- One entry of the `Promise.all` body of `enrichMap`: throwing when the
source registry lacks the key, passing the targets through unenriched when no
enrichment is needed, otherwise enriching the source and every target. -/
def enrichMapStep (details : String → OgDetails) (sources : List (String × Gene))
    (forceEnrich : Bool)
    (acc : List (String × List Gene) × List (String × Gene))
    (entry : String × List Gene) :
    Except String (List (String × List Gene) × List (String × Gene)) :=
  let sourceName := entry.1
  let targets := entry.2
  match jsLookup sources sourceName with
  | none => .error (sourceName ++ " not found in target")
  | some sourceGene =>
    let needsEnrichment := forceEnrich ||
      targets.all (fun target => target.name.jsLower ≠ sourceName.jsLower)
    if needsEnrichment = false then
      .ok (jsInsertKey acc.1 sourceName targets, acc.2)
    else
      let enrichedSource := enrichGene details sourceGene
      let enrichedTargets := targets.map (enrichGene details)
      .ok (jsInsertKey acc.1 sourceName enrichedTargets,
           jsInsertKey acc.2 sourceName enrichedSource)

/-- `enrichMap(orthologMap, sources, forceEnrich)` from orthodb.js.  The
`Except.error` case models the rejection of the joint `Promise.all`. -/
def enrichMap (details : String → OgDetails) (orthologMap : List (String × List Gene))
    (sources : List (String × Gene)) (forceEnrich : Bool) :
    Except String (List (String × List Gene) × List (String × Gene)) :=
  orthologMap.foldlM (enrichMapStep details sources forceEnrich) ([], [])

/-! ## Embedded source functions: lib.js / oma.js -/

/-- One entry of a MyGene.info `genomic_pos`. -/
structure GPos where
  chr : String
  start : Int
  stop : Int
  ensemblgene : Option String := none
  deriving Repr, DecidableEq

/-- The `genomic_pos` field of a hit: a single position or a list of
placements. -/
inductive GPosField where
  | one (p : GPos)
  | many (ps : List GPos)
  deriving Repr, DecidableEq

/-- A MyGene.info hit.  Absent properties are `none` (`'name' in gene` is the
`isSome` test); `mgiId` stands for the hit's `_id` property. -/
structure MgiHit where
  symbol : Option String := none
  name : Option String := none
  mgiId : Option String := none
  genomic_pos : Option GPosField := none
  deriving Repr, DecidableEq

/-- An Ideogram annotation as produced by `parseAnnotFromMgiGene`. -/
structure Annot where
  name : Option String
  chr : String
  start : Int
  stop : Int
  id : Option String
  location : String
  deriving Repr, DecidableEq

/-- `parseAnnotFromMgiGene(gene)` from lib.js (same body in oma.js):
an array-valued `genomic_pos` is filtered to drop placements whose chromosome
contains an underscore, and the first survivor is kept.  The `none` result
models the `TypeError` raised when no position survives (or none is given). -/
def parseAnnotFromMgiGene (gene : MgiHit) : Option Annot :=
  let genomicPos : Option GPos :=
    match gene.genomic_pos with
    | some (.many ps) => (ps.filter (fun pos => ¬ pos.chr.jsIncludes '_')).head?
    | some (.one p) => some p
    | none => none
  genomicPos.map (fun gp =>
    { name := gene.symbol
      chr := gp.chr
      start := gp.start
      stop := gp.stop
      id := gp.ensemblgene
      location := gp.chr ++ ":" ++ toString gp.start ++ "-" ++ toString gp.stop })

/-- An element of the batch passed to `fetchLocations`: a plain gene name or
an (enriched) gene object. -/
inductive GeneInput where
  | str (s : String)
  | obj (g : Gene)
  deriving Repr, DecidableEq

/-- Observable outcome of `fetchLocations` (oma.js), with the network calls
factored out: the MyGene.info hits are given as `hits`, and the fallback
re-query is reported as the list of NCBI gene ids it would be issued with. -/
inductive LocObs where
  | ok (annots : List Annot)
  | fallbackEUtils (ncbiGeneIds : List (Option String))
  | errEnrichmentNeeded
  | errType
  deriving Repr, DecidableEq

/-- `typeof gene === 'string'` on a batch element. -/
def isStrInput : GeneInput → Bool
  | .str _ => true
  | .obj _ => false

/-- `gene.ncbiGeneId` on a batch element (reading a property of a string
value yields `undefined`). -/
def inputNcbiId : GeneInput → Option String
  | .str _ => none
  | .obj g => g.ncbiGeneId

/-- The body of the `data.hits.forEach` loop of `fetchLocations`: flag hits
lacking a position or lacking both `name` and `_id`, otherwise parse and
collect; a `TypeError` inside `parseAnnotFromMgiGene` aborts the loop. -/
def fetchLocationsHitStep (acc : Bool × List Annot) (g : MgiHit) :
    Except Unit (Bool × List Annot) :=
  if g.genomic_pos.isNone ∨ (g.name.isNone ∧ g.mgiId.isNone) then
    .ok (true, acc.2)
  else
    match parseAnnotFromMgiGene g with
    | some a => .ok (acc.1, acc.2 ++ [a])
    | none => .error ()

/-- `fetchLocations(genes, taxid)` from oma.js as a pure decision function of
the batch and the primary provider's hits.  `errType` models the JavaScript
`TypeError` paths (`'ncbiGeneId' in genes[0]` on an empty batch, or a hit
whose placements are all on scaffolds). -/
def fetchLocations (genes : List GeneInput) (hits : List MgiHit) : LocObs :=
  match hits.foldlM fetchLocationsHitStep (hits.length < genes.length, []) with
  | .error _ => .errType
  | .ok (insufficientData, annots) =>
    if insufficientData then
      match genes with
      | [] => .errType
      | g0 :: _ =>
        match g0 with
        | .str _ => .errEnrichmentNeeded
        | .obj g =>
          if g.ncbiGeneId.isNone then .errEnrichmentNeeded
          else .fallbackEUtils (genes.map inputNcbiId)
    else .ok annots

/-! ## Predicates used by the verification -/

/-- The key list of an embedded object. -/
def mapKeys (m : List (String × α)) : List String := m.map Prod.fst

/-- The effect of `delete` on the key list. -/
def eraseKey (l : List String) (k : String) : List String :=
  match l with
  | [] => []
  | x :: xs => if x = k then xs else x :: eraseKey xs k

/-- Bookkeeping invariant of the builder state: the candidate map has unique
keys, it shares its key list with the seen-name map, and each seen-name list
is exactly the (duplicate-free) name column of the candidate list. -/
structure WFState (st : OrthoState) : Prop where
  nodup : (mapKeys st.orthologMap).Nodup
  sameKeys : mapKeys st.seenTargetNames = mapKeys st.orthologMap
  seen_eq : ∀ k l, jsLookup st.orthologMap k = some l →
    jsLookup st.seenTargetNames k = some (l.map Gene.name)
  seenNodup : ∀ k ns, jsLookup st.seenTargetNames k = some ns → ns.Nodup

/-- Case-insensitive distinctness of the candidate-map keys. -/
def CIKeys (st : OrthoState) : Prop :=
  ∀ k ∈ mapKeys st.orthologMap, ∀ k' ∈ mapKeys st.orthologMap,
    k.jsLower = k'.jsLower → k = k'

/-! ## Concrete fixtures used by witnesses and counterexamples -/

/-- A SPARQL row: human MTOR (upper-case in the database) with mouse
ortholog Mtor. -/
def mtorRow : SparqlResult where
  gene_s := "http://purl.orthodb.org/odbgene/9606_0_001c61"
  gene_s_name := "MTOR"
  gene_t := "http://purl.orthodb.org/odbgene/10090_0_004b2f"
  gene_t_name := "Mtor"

def mtorJson : SparqlJson := { results := { bindings := [mtorRow] } }

/-- A row whose aliased source name matches none of the queried genes, as in
the human RAD51 / Zea mays search the code comments describe. -/
def radRow : SparqlResult where
  gene_s := "http://purl.orthodb.org/odbgene/4577_0_000001"
  gene_s_name := "ACE2;BMX"
  gene_t := "http://purl.orthodb.org/odbgene/4577_0_000002"
  gene_t_name := "RAD51L"

def radJson : SparqlJson := { results := { bindings := [radRow] } }

/-- Two rows for source "A" whose target names differ only in case. -/
def rowTargUpper : SparqlResult where
  gene_s := "u/9606_0_0001"
  gene_s_name := "A"
  gene_t := "u/10090_0_0002"
  gene_t_name := "ABc"

def rowTargLower : SparqlResult where
  gene_s := "u/9606_0_0001"
  gene_s_name := "A"
  gene_t := "u/10090_0_0003"
  gene_t_name := "abc"

def abJson : SparqlJson := { results := { bindings := [rowTargUpper, rowTargLower] } }

/-- A row resolving to queried gene "B", used to show that the other queried
gene "A" keeps its initial empty list. -/
def rowSrcB : SparqlResult where
  gene_s := "u/9606_0_0004"
  gene_s_name := "B"
  gene_t := "u/10090_0_0005"
  gene_t_name := "Bb"

def srcBJson : SparqlJson := { results := { bindings := [rowSrcB] } }

/-- An enriched source-registry record and two candidates for the ranking
witness. -/
def srcGeneW : Gene :=
  { name := "", id := "9606_0:001c61", exons := some 5, domains := some ["d1", "d2"] }

def targW1 : Gene := { name := "Alpha", id := "t1", exons := some 5 }

def targW2 : Gene := { name := "Beta", id := "t2", exons := some 5 }

def c6Sources : List (String × Gene) := [("MTOR", srcGeneW)]

/-- Two candidates whose names both case-insensitively match the source gene
"MTOR": the comparator's first rule answers −1 on them in either direction. -/
def nmA : Gene := { name := "MTOR", id := "na" }

def nmB : Gene := { name := "mTOR", id := "nb" }

/-- Two candidates tied under every comparison rule against `srcGeneW`: the
exon counts are equal (so the exon rule is skipped) and `tieX` has no domain
list (so the domain rule's guard fails in both directions). -/
def tieX : Gene := { name := "X", id := "tx", exons := some 7 }

def tieY : Gene :=
  { name := "Y", id := "ty", exons := some 7, domains := some ["a1", "a2"] }

/-- A filler candidate: `tieY` compares before it (its domain count equals
the source's), while `tieX` is mute against it (no domain list). -/
def fillM : Gene :=
  { name := "M", id := "fm", exons := some 9,
    domains := some ["c1", "c2", "c3", "c4"] }

/-- A gene stub that already carries an amino-acid count. -/
def geneAasW : Gene := { name := "G", id := "x", aas := some 5 }

/-- A detail record carrying no fields at all. -/
def emptyDetails : String → OgDetails := fun _ => {}

/-- A well-formed single-position MyGene.info hit. -/
def hitOkW : MgiHit :=
  { symbol := some "MTOR", name := some "mtor hit",
    genomic_pos := some (.one { chr := "1", start := 11106535, stop := 11262551 }) }

/-- PTPRC-style placements: an alternative-locus scaffold followed by the
primary chromosome. -/
def ptprcAltPos : GPos := { chr := "1_KI270766v1_alt", start := 145737, stop := 257121 }

def ptprcMainPos : GPos :=
  { chr := "1", start := 198638457, stop := 198757476,
    ensemblgene := some "ENSG00000081237" }

def ptprcHit : MgiHit :=
  { symbol := some "PTPRC", name := some "ptprc hit",
    genomic_pos := some (.many [ptprcAltPos, ptprcMainPos]) }

/-- Fixtures for the enrichment-skip witness: source "A" has a target whose
name matches it case-insensitively, source "B" does not. -/
def c10Details : String → OgDetails := fun _ => { exons := some 3, interpro := some ["IPR1"] }

def c10Map : List (String × List Gene) :=
  [("A", [{ name := "a", id := "t1" }]), ("B", [{ name := "Xyz", id := "t2" }])]

def c10Sources : List (String × Gene) := [("A", { id := "sA" }), ("B", { id := "sB" })]

/-! ## Association-list lemmas -/

theorem jsLookup_insert_self (m : List (String × α)) (k : String) (v : α) :
    jsLookup (jsInsertKey m k v) k = some v := by
  induction m with
  | nil => simp [jsLookup, jsInsertKey]
  | cons p rest ih =>
    obtain ⟨pk, pv⟩ := p
    by_cases h : pk = k
    · simp [jsLookup, jsInsertKey, h]
    · simp [jsLookup, jsInsertKey, h, ih]

theorem jsLookup_insert_ne (m : List (String × α)) (k k' : String) (v : α)
    (h : k' ≠ k) : jsLookup (jsInsertKey m k v) k' = jsLookup m k' := by
  induction m with
  | nil => simp [jsLookup, jsInsertKey, Ne.symm h]
  | cons p rest ih =>
    obtain ⟨pk, pv⟩ := p
    by_cases hp : pk = k
    · subst hp
      simp [jsLookup, jsInsertKey, Ne.symm h]
    · by_cases hp' : pk = k'
      · simp [jsLookup, jsInsertKey, hp, hp', h]
      · simp [jsLookup, jsInsertKey, hp, hp', ih]

theorem jsLookup_erase_ne (m : List (String × α)) (k k' : String)
    (h : k' ≠ k) : jsLookup (jsErase m k) k' = jsLookup m k' := by
  induction m with
  | nil => simp [jsErase]
  | cons p rest ih =>
    obtain ⟨pk, pv⟩ := p
    by_cases hp : pk = k
    · subst hp
      simp [jsErase, jsLookup, Ne.symm h]
    · by_cases hp' : pk = k'
      · simp [jsErase, jsLookup, hp, hp', h]
      · simp [jsErase, jsLookup, hp, hp', ih]

theorem mapKeys_insert (m : List (String × α)) (k : String) (v : α) :
    mapKeys (jsInsertKey m k v) =
      if k ∈ mapKeys m then mapKeys m else mapKeys m ++ [k] := by
  induction m with
  | nil => simp [mapKeys, jsInsertKey]
  | cons p rest ih =>
    obtain ⟨pk, pv⟩ := p
    by_cases hp : pk = k
    · simp [mapKeys, jsInsertKey, hp]
    · simp only [jsInsertKey, if_neg hp, mapKeys, List.map_cons, List.mem_cons]
      simp only [mapKeys] at ih
      rw [ih]
      by_cases hk : k ∈ rest.map Prod.fst
      · simp [hk]
      · simp [hk, Ne.symm hp]

theorem mapKeys_erase (m : List (String × α)) (k : String) :
    mapKeys (jsErase m k) = eraseKey (mapKeys m) k := by
  induction m with
  | nil => simp [mapKeys, jsErase, eraseKey]
  | cons p rest ih =>
    obtain ⟨pk, pv⟩ := p
    by_cases hp : pk = k
    · simp [mapKeys, jsErase, eraseKey, hp]
    · simp only [jsErase, if_neg hp, mapKeys, List.map_cons, eraseKey]
      simpa [mapKeys, hp] using ih

theorem mem_eraseKey_subset (l : List String) (k k' : String)
    (h : k' ∈ eraseKey l k) : k' ∈ l := by
  induction l with
  | nil => simp [eraseKey] at h
  | cons x xs ih =>
    by_cases hx : x = k
    · simp only [eraseKey, if_pos hx] at h
      exact List.mem_cons_of_mem _ h
    · simp only [eraseKey, if_neg hx, List.mem_cons] at h
      rcases h with h | h
      · exact h ▸ List.mem_cons_self _ _
      · exact List.mem_cons_of_mem _ (ih h)

theorem nodup_eraseKey (l : List String) (k : String)
    (h : l.Nodup) : (eraseKey l k).Nodup := by
  induction l with
  | nil => simp [eraseKey]
  | cons x xs ih =>
    rcases List.nodup_cons.mp h with ⟨hx, hxs⟩
    by_cases hxk : x = k
    · simpa [eraseKey, hxk] using hxs
    · simp only [eraseKey, if_neg hxk]
      exact List.nodup_cons.mpr ⟨fun hm => hx (mem_eraseKey_subset _ _ _ hm), ih hxs⟩

theorem not_mem_eraseKey (l : List String) (k : String)
    (h : l.Nodup) : k ∉ eraseKey l k := by
  induction l with
  | nil => simp [eraseKey]
  | cons x xs ih =>
    rcases List.nodup_cons.mp h with ⟨hx, hxs⟩
    by_cases hxk : x = k
    · subst hxk; simpa [eraseKey] using hx
    · simp only [eraseKey, if_neg hxk, List.mem_cons]
      rintro (h' | h')
      · exact hxk h'.symm
      · exact ih hxs h'

theorem jsLookup_isSome_iff (m : List (String × α)) (k : String) :
    (jsLookup m k).isSome ↔ k ∈ mapKeys m := by
  induction m with
  | nil => simp [jsLookup, mapKeys]
  | cons p rest ih =>
    obtain ⟨pk, pv⟩ := p
    by_cases hp : pk = k
    · simp [jsLookup, mapKeys, hp]
    · simp [jsLookup, mapKeys, hp, ih, Ne.symm hp]

theorem jsLookup_eq_none_iff (m : List (String × α)) (k : String) :
    jsLookup m k = none ↔ k ∉ mapKeys m := by
  rw [← jsLookup_isSome_iff]
  cases jsLookup m k <;> simp

theorem nodup_mapKeys_insert (m : List (String × α)) (k : String) (v : α)
    (h : (mapKeys m).Nodup) : (mapKeys (jsInsertKey m k v)).Nodup := by
  rw [mapKeys_insert]
  by_cases hk : k ∈ mapKeys m
  · simpa [hk]
  · simp only [if_neg hk]
    refine List.Nodup.append h (List.nodup_singleton k) ?_
    intro a ha hb
    simp only [List.mem_singleton] at hb
    exact hk (hb ▸ ha)

theorem nodup_mapKeys_erase (m : List (String × α)) (k : String)
    (h : (mapKeys m).Nodup) : (mapKeys (jsErase m k)).Nodup := by
  rw [mapKeys_erase]; exact nodup_eraseKey _ _ h

theorem jsLookup_erase_self (m : List (String × α)) (k : String)
    (h : (mapKeys m).Nodup) : jsLookup (jsErase m k) k = none := by
  rw [jsLookup_eq_none_iff, mapKeys_erase]
  exact not_mem_eraseKey _ _ h

theorem mem_mapKeys_of_mem_erase (m : List (String × α)) (k k' : String)
    (h : k' ∈ mapKeys (jsErase m k)) : k' ∈ mapKeys m := by
  rw [mapKeys_erase] at h
  exact mem_eraseKey_subset _ _ _ h

theorem mem_mapKeys_of_mem_insert (m : List (String × α)) (k k' : String) (v : α)
    (h : k' ∈ mapKeys (jsInsertKey m k v)) : k' ∈ mapKeys m ∨ k' = k := by
  rw [mapKeys_insert] at h
  by_cases hk : k ∈ mapKeys m
  · simp only [if_pos hk] at h; exact Or.inl h
  · simp only [if_neg hk, List.mem_append, List.mem_singleton] at h; exact h

/-! ## Sort lemmas -/

/-- A suffix whose elements the comparator already orders weakly against
their predecessors (`cmp next prev ≥ 0` along the chain) is consumed whole
by the ascending-run scan. -/
theorem ascRun_of_chain (cmp : α → α → Int) :
    ∀ (l : List α) (prev : α), List.Chain (fun a b => cmp b a ≥ 0) prev l →
      ascRun cmp prev l = (l, []) := by
  intro l
  induction l with
  | nil => intro prev _; rfl
  | cons x xs ih =>
    intro prev h
    rw [List.chain_cons] at h
    simp only [ascRun, if_pos h.1, ih x h.2]

/-- TimSort leaves a list unchanged when every adjacent pair already
compares non-negatively in input order: the initial run swallows the whole
array and nothing remains to insert.  In particular a comparator that never
answers a negative number — such as a boolean comparator coerced to `1`/`0`
— makes the sort the identity. -/
theorem jsSort_of_chain (cmp : α → α → Int) (l : List α)
    (h : l.Chain' (fun a b => cmp b a ≥ 0)) : jsSort cmp l = l := by
  cases l with
  | nil => rfl
  | cons x t =>
    cases t with
    | nil => rfl
    | cons y rest =>
      have h1 : cmp y x ≥ 0 := (List.chain'_cons.mp h).1
      have h2 : List.Chain (fun a b => cmp b a ≥ 0) y rest :=
        (List.chain'_cons.mp h).2
      simp only [jsSort, makeRun, if_neg (by omega : ¬ cmp y x < 0),
        ascRun_of_chain cmp rest y h2, binInsertAll]

/-- Generic `foldl` invariant preservation. -/
theorem foldl_preserve {P : β → Prop} (f : β → γ → β) (l : List γ)
    (hstep : ∀ s x, x ∈ l → P s → P (f s x)) (s : β) (hs : P s) :
    P (l.foldl f s) := by
  induction l generalizing s with
  | nil => exact hs
  | cons x xs ih =>
    exact ih (fun s' y hy => hstep s' y (List.mem_cons_of_mem _ hy)) _
      (hstep s x (List.mem_cons_self _ _) hs)

/-! ## Invariants of the ortholog-map builder -/

theorem wf_mergeStep (source gene : String) (st : OrthoState) (h : WFState st) :
    WFState (mergeStep source st gene) := by
  unfold mergeStep
  split_ifs with hc
  · obtain ⟨hsome, hne, _⟩ := hc
    obtain ⟨lg, hlg⟩ : ∃ lg, jsLookup st.orthologMap gene = some lg :=
      Option.isSome_iff_exists.mp hsome
    have hsg : jsLookup st.seenTargetNames gene = some (lg.map Gene.name) :=
      h.seen_eq gene lg hlg
    have hsrcne : source ≠ gene := Ne.symm hne
    have hnodupSeen : (mapKeys st.seenTargetNames).Nodup := h.sameKeys ▸ h.nodup
    have hnodupInsM : (mapKeys (jsInsertKey st.orthologMap source lg)).Nodup := by
      have := nodup_mapKeys_insert st.orthologMap source lg h.nodup
      simpa [hlg] using this
    have hnodupInsS :
        (mapKeys (jsInsertKey st.seenTargetNames source (lg.map Gene.name))).Nodup := by
      have := nodup_mapKeys_insert st.seenTargetNames source (lg.map Gene.name) hnodupSeen
      simpa [hsg] using this
    refine ⟨?_, ?_, ?_, ?_⟩
    · simp only [hlg, Option.getD_some]
      exact nodup_mapKeys_erase _ gene hnodupInsM
    · simp only [hlg, hsg, Option.getD_some, mapKeys_erase, mapKeys_insert, h.sameKeys]
    · intro k l hkl
      simp only [hlg, Option.getD_some] at hkl
      simp only [hsg, Option.getD_some]
      by_cases hkg : k = gene
      · subst hkg
        rw [jsLookup_erase_self _ _ hnodupInsM] at hkl
        exact absurd hkl (by simp)
      · by_cases hks : k = source
        · subst hks
          rw [jsLookup_erase_ne _ _ _ hsrcne, jsLookup_insert_self] at hkl
          obtain rfl : lg = l := by injection hkl
          rw [jsLookup_erase_ne _ _ _ hsrcne, jsLookup_insert_self]
        · rw [jsLookup_erase_ne _ _ _ hkg, jsLookup_insert_ne _ _ _ _ hks] at hkl
          rw [jsLookup_erase_ne _ _ _ hkg, jsLookup_insert_ne _ _ _ _ hks]
          exact h.seen_eq k l hkl
    · intro k ns hns
      simp only [hsg, Option.getD_some] at hns
      by_cases hkg : k = gene
      · subst hkg
        rw [jsLookup_erase_self _ _ hnodupInsS] at hns
        exact absurd hns (by simp)
      · by_cases hks : k = source
        · subst hks
          rw [jsLookup_erase_ne _ _ _ hsrcne, jsLookup_insert_self] at hns
          obtain rfl : lg.map Gene.name = ns := by injection hns
          exact h.seenNodup gene _ hsg
        · rw [jsLookup_erase_ne _ _ _ hkg, jsLookup_insert_ne _ _ _ _ hks] at hns
          exact h.seenNodup k ns hns
  · exact h

theorem wf_pushTarget (S nm cid : String) (st : OrthoState) (h : WFState st) :
    WFState (pushTarget S nm cid st) := by
  unfold pushTarget
  split_ifs with hcond
  · obtain ⟨hsome, hnotseen⟩ := hcond
    have hSseen : S ∈ mapKeys st.seenTargetNames := (jsLookup_isSome_iff _ _).mp hsome
    have hSmap : S ∈ mapKeys st.orthologMap := h.sameKeys ▸ hSseen
    obtain ⟨lm, hlm⟩ : ∃ lm, jsLookup st.orthologMap S = some lm :=
      Option.isSome_iff_exists.mp ((jsLookup_isSome_iff _ _).mpr hSmap)
    have hseenS : jsLookup st.seenTargetNames S = some (lm.map Gene.name) :=
      h.seen_eq S lm hlm
    have hnm_not_mem : nm ∉ lm.map Gene.name := by
      intro hmem
      apply hnotseen
      simp only [hseenS, Option.getD_some]
      exact List.elem_iff.mpr hmem
    refine ⟨?_, ?_, ?_, ?_⟩
    · dsimp only
      rw [mapKeys_insert, if_pos hSmap]
      exact h.nodup
    · dsimp only
      rw [mapKeys_insert, if_pos hSseen, mapKeys_insert, if_pos hSmap, h.sameKeys]
    · intro k l hkl
      dsimp only at hkl ⊢
      by_cases hks : k = S
      · subst hks
        rw [jsLookup_insert_self] at hkl
        simp only [hlm, Option.getD_some] at hkl
        obtain rfl : lm ++ [({ name := nm, id := cid } : Gene)] = l := by injection hkl
        rw [jsLookup_insert_self]
        simp [hseenS]
      · rw [jsLookup_insert_ne _ _ _ _ hks] at hkl
        rw [jsLookup_insert_ne _ _ _ _ hks]
        exact h.seen_eq k l hkl
    · intro k ns hns
      dsimp only at hns
      by_cases hks : k = S
      · subst hks
        rw [jsLookup_insert_self] at hns
        simp only [hseenS, Option.getD_some] at hns
        obtain rfl : lm.map Gene.name ++ [nm] = ns := by injection hns
        have hnd : (lm.map Gene.name).Nodup := h.seenNodup _ _ hseenS
        simp [List.nodup_append, hnd, hnm_not_mem]
      · rw [jsLookup_insert_ne _ _ _ _ hks] at hns
        exact h.seenNodup k ns hns
  · exact h

theorem wf_setSource (S sid : String) (st : OrthoState) (h : WFState st) :
    WFState (setSource S sid st) :=
  ⟨h.nodup, h.sameKeys, h.seen_eq, h.seenNodup⟩

theorem wf_processResult (genes : List String) (st : OrthoState) (r : SparqlResult)
    (h : WFState st) : WFState (processResult genes st r) := by
  unfold processResult
  cases hres : resolveSource genes r.gene_s_name with
  | none => exact h
  | some S =>
    exact wf_pushTarget _ _ _ _ (wf_setSource _ _ _
      (foldl_preserve (P := WFState) (mergeStep S) genes
        (fun s x _ hs => wf_mergeStep S x s hs) st h))

theorem jsLookup_foldl_insert (v₀ : α) :
    ∀ (gs : List String) (m : List (String × α)) (g : String),
      (g ∈ gs ∨ jsLookup m g = some v₀) →
      jsLookup (gs.foldl (fun m' g' => jsInsertKey m' g' v₀) m) g = some v₀ := by
  intro gs
  induction gs with
  | nil =>
    intro m g h
    rcases h with h | h
    · simp at h
    · exact h
  | cons x xs ih =>
    intro m g h
    by_cases hxg : g = x
    · subst hxg
      refine ih _ g (Or.inr ?_)
      exact jsLookup_insert_self m g v₀
    · rcases h with h | h
      · rcases List.mem_cons.mp h with h' | h'
        · exact absurd h'.symm (fun he => hxg he.symm)
        · exact ih _ g (Or.inl h')
      · refine ih _ g (Or.inr ?_)
        rw [jsLookup_insert_ne _ _ _ _ hxg]
        exact h

theorem jsLookup_foldl_insert_val (v₀ : α) :
    ∀ (gs : List String) (m : List (String × α)),
      (∀ k w, jsLookup m k = some w → w = v₀) →
      ∀ k w, jsLookup (gs.foldl (fun m' g' => jsInsertKey m' g' v₀) m) k = some w → w = v₀ := by
  intro gs
  induction gs with
  | nil => intro m hm k w h; exact hm k w h
  | cons x xs ih =>
    intro m hm k w h
    refine ih _ ?_ k w h
    intro k' w' h'
    by_cases hk : k' = x
    · subst hk
      rw [jsLookup_insert_self] at h'
      injection h' with h''
      exact h''.symm
    · rw [jsLookup_insert_ne _ _ _ _ hk] at h'
      exact hm k' w' h'

theorem mem_mapKeys_foldl_insert (v₀ : α) :
    ∀ (gs : List String) (m : List (String × α)) (k : String),
      k ∈ mapKeys (gs.foldl (fun m' g' => jsInsertKey m' g' v₀) m) →
      k ∈ mapKeys m ∨ k ∈ gs := by
  intro gs
  induction gs with
  | nil => intro m k h; exact Or.inl h
  | cons x xs ih =>
    intro m k h
    rcases ih _ k h with h' | h'
    · rcases mem_mapKeys_of_mem_insert _ _ _ _ h' with h'' | h''
      · exact Or.inl h''
      · exact Or.inr (h'' ▸ List.mem_cons_self _ _)
    · exact Or.inr (List.mem_cons_of_mem _ h')

theorem nodup_mapKeys_foldl_insert (v₀ : α) (gs : List String)
    (m : List (String × α)) (h : (mapKeys m).Nodup) :
    (mapKeys (gs.foldl (fun m' g' => jsInsertKey m' g' v₀) m)).Nodup :=
  foldl_preserve (P := fun m' => (mapKeys m').Nodup) _ gs
    (fun s x _ hs => nodup_mapKeys_insert s x v₀ hs) m h

theorem mapKeys_foldl_insert_congr (v₁ : α) (v₂ : β) :
    ∀ (gs : List String) (m₁ : List (String × α)) (m₂ : List (String × β)),
      mapKeys m₁ = mapKeys m₂ →
      mapKeys (gs.foldl (fun m' g' => jsInsertKey m' g' v₁) m₁) =
        mapKeys (gs.foldl (fun m' g' => jsInsertKey m' g' v₂) m₂) := by
  intro gs
  induction gs with
  | nil => intro m₁ m₂ h; exact h
  | cons x xs ih =>
    intro m₁ m₂ h
    refine ih _ _ ?_
    rw [mapKeys_insert, mapKeys_insert, h]

theorem wf_initState (genes : List String) : WFState (initState genes) := by
  have hvalM : ∀ k w, jsLookup (initState genes).orthologMap k = some w → w = [] :=
    jsLookup_foldl_insert_val ([] : List Gene) genes [] (by intro k w h; simp [jsLookup] at h)
  have hvalS : ∀ k w, jsLookup (initState genes).seenTargetNames k = some w → w = [] :=
    jsLookup_foldl_insert_val ([] : List String) genes [] (by intro k w h; simp [jsLookup] at h)
  have hsame : mapKeys (initState genes).seenTargetNames =
      mapKeys (initState genes).orthologMap :=
    mapKeys_foldl_insert_congr ([] : List String) ([] : List Gene) genes [] [] rfl
  refine ⟨?_, hsame, ?_, ?_⟩
  · exact nodup_mapKeys_foldl_insert ([] : List Gene) genes [] (by simp [mapKeys])
  · intro k l hkl
    obtain rfl : l = [] := hvalM k l hkl
    have hk : k ∈ mapKeys (initState genes).orthologMap :=
      (jsLookup_isSome_iff _ _).mp (by simp [hkl])
    have hk' : k ∈ mapKeys (initState genes).seenTargetNames := hsame ▸ hk
    obtain ⟨ns, hns⟩ : ∃ ns, jsLookup (initState genes).seenTargetNames k = some ns :=
      Option.isSome_iff_exists.mp ((jsLookup_isSome_iff _ _).mpr hk')
    obtain rfl : ns = [] := hvalS k ns hns
    simpa using hns
  · intro k ns hns
    obtain rfl : ns = [] := hvalS k ns hns
    simp

theorem wf_getOrthologMap (genes : List String) (json : SparqlJson) :
    WFState (getOrthologMap genes json) :=
  foldl_preserve (P := WFState) (processResult genes) json.results.bindings
    (fun s x _ hs => wf_processResult genes s x hs) _ (wf_initState genes)

theorem ci_mergeStep (source gene : String) (st : OrthoState)
    (hwf : WFState st) (hci : CIKeys st) : CIKeys (mergeStep source st gene) := by
  unfold mergeStep
  split_ifs with hc
  · obtain ⟨hsome, hne, hlow⟩ := hc
    have hgene_mem : gene ∈ mapKeys st.orthologMap := (jsLookup_isSome_iff _ _).mp hsome
    have hS_not : source ∉ mapKeys st.orthologMap := by
      intro hS
      exact hne (hci gene hgene_mem source hS hlow)
    have hkeys : mapKeys (jsInsertKey st.orthologMap source
        ((jsLookup st.orthologMap gene).getD [])) =
        mapKeys st.orthologMap ++ [source] := by
      rw [mapKeys_insert, if_neg hS_not]
    have hnodup_app : (mapKeys st.orthologMap ++ [source]).Nodup := by
      refine List.Nodup.append hwf.nodup (List.nodup_singleton source) ?_
      intro a ha hb
      simp only [List.mem_singleton] at hb
      exact hS_not (hb ▸ ha)
    have hgene_out : gene ∉ eraseKey (mapKeys st.orthologMap ++ [source]) gene :=
      not_mem_eraseKey _ _ hnodup_app
    intro k hk k' hk' hl
    dsimp only at hk hk'
    rw [mapKeys_erase, hkeys] at hk hk'
    have hmemk := mem_eraseKey_subset _ _ _ hk
    have hmemk' := mem_eraseKey_subset _ _ _ hk'
    simp only [List.mem_append, List.mem_singleton] at hmemk hmemk'
    rcases hmemk with hkm | rfl
    · rcases hmemk' with hkm' | rfl
      · exact hci k hkm k' hkm' hl
      · have hkg : k = gene := hci k hkm gene hgene_mem (by rw [hl, ← hlow])
        exact absurd (hkg ▸ hk) hgene_out
    · rcases hmemk' with hkm' | rfl
      · have hkg : k' = gene := hci k' hkm' gene hgene_mem (by rw [← hl, ← hlow])
        exact absurd (hkg ▸ hk') hgene_out
      · rfl
  · exact hci

theorem mapKeys_pushTarget (S nm cid : String) (st : OrthoState)
    (hsame : mapKeys st.seenTargetNames = mapKeys st.orthologMap) :
    mapKeys (pushTarget S nm cid st).orthologMap = mapKeys st.orthologMap := by
  unfold pushTarget
  split_ifs with hcond
  · dsimp only
    rw [mapKeys_insert, if_pos (hsame ▸ (jsLookup_isSome_iff _ _).mp hcond.1)]
  · rfl

theorem wfci_processResult (genes : List String) (st : OrthoState) (r : SparqlResult)
    (h : WFState st ∧ CIKeys st) :
    WFState (processResult genes st r) ∧ CIKeys (processResult genes st r) := by
  unfold processResult
  cases hres : resolveSource genes r.gene_s_name with
  | none => exact h
  | some S =>
    have hfold : WFState (genes.foldl (mergeStep S) st) ∧
        CIKeys (genes.foldl (mergeStep S) st) :=
      foldl_preserve (P := fun s => WFState s ∧ CIKeys s) (mergeStep S) genes
        (fun s x _ hs => ⟨wf_mergeStep S x s hs.1, ci_mergeStep S x s hs.1 hs.2⟩) st h
    have hset : WFState (setSource S (getOrthoDBId r.gene_s)
        (genes.foldl (mergeStep S) st)) := wf_setSource _ _ _ hfold.1
    have hsetci : CIKeys (setSource S (getOrthoDBId r.gene_s)
        (genes.foldl (mergeStep S) st)) := hfold.2
    refine ⟨wf_pushTarget _ _ _ _ hset, ?_⟩
    intro k hk k' hk' hl
    rw [mapKeys_pushTarget _ _ _ _ hset.sameKeys] at hk hk'
    exact hsetci k hk k' hk' hl

theorem ci_initState (genes : List String)
    (hg : ∀ g ∈ genes, ∀ g' ∈ genes, g.jsLower = g'.jsLower → g = g') :
    CIKeys (initState genes) := by
  intro k hk k' hk' hl
  have hkg : k ∈ genes := by
    rcases mem_mapKeys_foldl_insert ([] : List Gene) genes [] k hk with h | h
    · simp [mapKeys] at h
    · exact h
  have hkg' : k' ∈ genes := by
    rcases mem_mapKeys_foldl_insert ([] : List Gene) genes [] k' hk' with h | h
    · simp [mapKeys] at h
    · exact h
  exact hg k hkg k' hkg' hl

theorem wfci_getOrthologMap (genes : List String) (json : SparqlJson)
    (hg : ∀ g ∈ genes, ∀ g' ∈ genes, g.jsLower = g'.jsLower → g = g') :
    WFState (getOrthologMap genes json) ∧ CIKeys (getOrthologMap genes json) :=
  foldl_preserve (P := fun s => WFState s ∧ CIKeys s) (processResult genes)
    json.results.bindings (fun s x _ hs => wfci_processResult genes s x hs) _
    ⟨wf_initState genes, ci_initState genes hg⟩

/-! ## A queried gene no row matches keeps its initial empty list -/

theorem lookup_nil_mergeStep (g source gene : String) (st : OrthoState)
    (hglow : source.jsLower ≠ g.jsLower)
    (h : jsLookup st.orthologMap g = some []) :
    jsLookup (mergeStep source st gene).orthologMap g = some [] := by
  unfold mergeStep
  split_ifs with hc
  · obtain ⟨_, _, hlow⟩ := hc
    have hgene_ne : g ≠ gene := by
      intro he
      exact hglow (by rw [← hlow, he])
    have hS_ne : g ≠ source := by
      intro he
      exact hglow (by rw [he])
    dsimp only
    rw [jsLookup_erase_ne _ _ _ hgene_ne, jsLookup_insert_ne _ _ _ _ hS_ne]
    exact h
  · exact h

theorem lookup_nil_processResult (genes : List String) (st : OrthoState)
    (r : SparqlResult) (g : String)
    (hrow : ∀ S, resolveSource genes r.gene_s_name = some S → S.jsLower ≠ g.jsLower)
    (h : jsLookup st.orthologMap g = some []) :
    jsLookup (processResult genes st r).orthologMap g = some [] := by
  unfold processResult
  cases hres : resolveSource genes r.gene_s_name with
  | none => exact h
  | some S =>
    have hlow := hrow S hres
    have hfold : jsLookup (genes.foldl (mergeStep S) st).orthologMap g = some [] :=
      foldl_preserve (P := fun s => jsLookup s.orthologMap g = some []) (mergeStep S)
        genes (fun s x _ hs => lookup_nil_mergeStep g S x s hlow hs) st h
    have hS_ne : g ≠ S := by
      intro he
      exact hlow (by rw [he])
    dsimp only
    unfold pushTarget
    split_ifs with hcond
    · dsimp only
      rw [jsLookup_insert_ne _ _ _ _ hS_ne]
      exact hfold
    · exact hfold

/-! ## Exact evaluation of the case-canonicalization pass over one row -/

theorem mergeFold_id (S : String) :
    ∀ (gs : List String) (st : OrthoState),
      (∀ g' ∈ gs, ¬ ((jsLookup st.orthologMap g').isSome ∧ g' ≠ S ∧
        g'.jsLower = S.jsLower)) →
      gs.foldl (mergeStep S) st = st := by
  intro gs
  induction gs with
  | nil => intro st _; rfl
  | cons x xs ih =>
    intro st hmem
    have hx : mergeStep S st x = st := by
      unfold mergeStep
      rw [if_neg (hmem x (List.mem_cons_self _ _))]
    rw [List.foldl_cons, hx]
    exact ih st (fun g' hg' => hmem g' (List.mem_cons_of_mem _ hg'))

theorem mergeFold_eval (S g : String) (ts : List Gene) (ns : List String) :
    ∀ (genes : List String) (st : OrthoState),
      g ∈ genes → g ≠ S → g.jsLower = S.jsLower →
      (∀ g' ∈ genes, g'.jsLower = S.jsLower → g' = g) →
      jsLookup st.orthologMap g = some ts →
      jsLookup st.seenTargetNames g = some ns →
      (mapKeys st.orthologMap).Nodup →
      (mapKeys st.seenTargetNames).Nodup →
      genes.foldl (mergeStep S) st =
        { st with
          orthologMap := jsErase (jsInsertKey st.orthologMap S ts) g,
          seenTargetNames := jsErase (jsInsertKey st.seenTargetNames S ns) g } := by
  intro genes
  induction genes with
  | nil => intro st hg; simp at hg
  | cons x xs ih =>
    intro st hg hne hlow huniq hmap hseen hndM hndS
    by_cases hxg : x = g
    · subst hxg
      have hstep : mergeStep S st x =
          { st with
            orthologMap := jsErase (jsInsertKey st.orthologMap S ts) x,
            seenTargetNames := jsErase (jsInsertKey st.seenTargetNames S ns) x } := by
        unfold mergeStep
        rw [if_pos ⟨by simp [hmap], hne, hlow⟩]
        simp [hmap, hseen]
      rw [List.foldl_cons, hstep]
      refine mergeFold_id S xs _ ?_
      rintro g' hg' ⟨hsome', hne', hlow'⟩
      have hg'x : g' = x := huniq g' (List.mem_cons_of_mem _ hg') hlow'
      subst hg'x
      have hnone : jsLookup (jsErase (jsInsertKey st.orthologMap S ts) g')
          g' = none :=
        jsLookup_erase_self _ _ (by
          have := nodup_mapKeys_insert st.orthologMap S ts hndM
          exact this)
      simp only [hnone] at hsome'
      simp at hsome'
    · have hstep : mergeStep S st x = st := by
        unfold mergeStep
        rw [if_neg]
        rintro ⟨hsome', hne', hlow'⟩
        exact hxg (huniq x (List.mem_cons_self _ _) hlow')
      rw [List.foldl_cons, hstep]
      have hg' : g ∈ xs := by
        rcases List.mem_cons.mp hg with h | h
        · exact absurd h.symm hxg
        · exact h
      exact ih st hg' hne hlow
        (fun g' hgg hll => huniq g' (List.mem_cons_of_mem _ hgg) hll)
        hmap hseen hndM hndS

/-! ## Evaluation of the fetchLocations hit loop -/

theorem fetchFold_eval :
    ∀ (hits : List MgiHit) (b : Bool) (acc : List Annot),
      (∀ g ∈ hits, g.genomic_pos.isSome → (parseAnnotFromMgiGene g).isSome) →
      ∃ acc', hits.foldlM fetchLocationsHitStep (b, acc) =
        Except.ok ((b || hits.any (fun g => g.genomic_pos.isNone ||
          (g.name.isNone && g.mgiId.isNone))), acc') := by
  intro hits
  induction hits with
  | nil =>
    intro b acc _
    exact ⟨acc, by simp [List.foldlM]; rfl⟩
  | cons g gs ih =>
    intro b acc hp
    have hgs := fun g' hg' => hp g' (List.mem_cons_of_mem _ hg')
    by_cases hcond : g.genomic_pos.isNone ∨ (g.name.isNone ∧ g.mgiId.isNone)
    · have hstep : fetchLocationsHitStep (b, acc) g = .ok (true, acc) := by
        unfold fetchLocationsHitStep
        rw [if_pos hcond]
      obtain ⟨acc', hacc'⟩ := ih true acc hgs
      refine ⟨acc', ?_⟩
      rw [List.foldlM_cons, hstep]
      have hgb : (g.genomic_pos.isNone || (g.name.isNone && g.mgiId.isNone)) = true := by
        rcases hcond with h | h
        · simp [h]
        · simp [h.1, h.2]
      simp only [List.any_cons, hgb, Bool.true_or, Bool.or_true]
      simpa using hacc'
    · have hsome : g.genomic_pos.isSome := by
        rcases hgp : g.genomic_pos with _ | v
        · exact absurd (Or.inl (by simp [hgp])) hcond
        · simp
      obtain ⟨a, ha⟩ := Option.isSome_iff_exists.mp (hp g (List.mem_cons_self _ _) hsome)
      have hstep : fetchLocationsHitStep (b, acc) g = .ok (b, acc ++ [a]) := by
        unfold fetchLocationsHitStep
        rw [if_neg hcond, ha]
      obtain ⟨acc', hacc'⟩ := ih b (acc ++ [a]) hgs
      refine ⟨acc', ?_⟩
      rw [List.foldlM_cons, hstep]
      have hgb : (g.genomic_pos.isNone || (g.name.isNone && g.mgiId.isNone)) = false := by
        rcases hgp : g.genomic_pos with _ | v
        · exact absurd (Or.inl (by simp [hgp])) hcond
        · rcases hn : g.name.isNone with _ | _ <;> rcases hm : g.mgiId.isNone with _ | _ <;>
            simp_all
      simp only [List.any_cons, hgb, Bool.false_or]
      simpa using hacc'

/-! ## Evaluation of the enrichMap loop -/

theorem enrichMap_fold (details : String → OgDetails) (sources : List (String × Gene)) :
    ∀ (m : List (String × List Gene)) (accM : List (String × List Gene))
      (accS : List (String × Gene)),
      (∀ k ∈ mapKeys m, (jsLookup sources k).isSome) →
      (mapKeys m).Nodup →
      (∀ k ∈ mapKeys m, jsLookup accM k = none ∧ jsLookup accS k = none) →
      ∃ em es, m.foldlM (enrichMapStep details sources false) (accM, accS) =
          Except.ok (em, es) ∧
        (∀ k, k ∉ mapKeys m →
          jsLookup em k = jsLookup accM k ∧ jsLookup es k = jsLookup accS k) ∧
        (∀ k ts, jsLookup m k = some ts →
          ((∃ t ∈ ts, t.name.jsLower = k.jsLower) →
            jsLookup em k = some ts ∧ jsLookup es k = none) ∧
          ((∀ t ∈ ts, t.name.jsLower ≠ k.jsLower) →
            jsLookup em k = some (ts.map (enrichGene details)) ∧
            (jsLookup es k).isSome)) := by
  intro m
  induction m with
  | nil =>
    intro accM accS _ _ _
    refine ⟨accM, accS, by simp [List.foldlM]; rfl, ?_, ?_⟩
    · intro k _; exact ⟨rfl, rfl⟩
    · intro k ts hts; simp [jsLookup] at hts
  | cons e m' ih =>
    intro accM accS hall hnodup haccnone
    obtain ⟨k₀, ts₀⟩ := e
    have hk₀mem : k₀ ∈ mapKeys ((k₀, ts₀) :: m') := by simp [mapKeys]
    obtain ⟨sg, hsg⟩ := Option.isSome_iff_exists.mp (hall k₀ hk₀mem)
    have hk₀notin : k₀ ∉ mapKeys m' := by
      have := hnodup
      simp only [mapKeys, List.map_cons, List.nodup_cons] at this
      exact this.1
    have hnodup' : (mapKeys m').Nodup := by
      have := hnodup
      simp only [mapKeys, List.map_cons, List.nodup_cons] at this
      exact this.2
    have hall' : ∀ k ∈ mapKeys m', (jsLookup sources k).isSome := by
      intro k hk
      exact hall k (by simp only [mapKeys, List.map_cons]; exact List.mem_cons_of_mem _ hk)
    by_cases hneed : ts₀.all (fun target => target.name.jsLower ≠ k₀.jsLower) = true
    · -- enrichment path
      have hstep : enrichMapStep details sources false (accM, accS) (k₀, ts₀) =
          .ok (jsInsertKey accM k₀ (ts₀.map (enrichGene details)),
               jsInsertKey accS k₀ (enrichGene details sg)) := by
        simp only [enrichMapStep]
        rw [hsg]
        dsimp only
        rw [Bool.false_or, hneed]
        rfl
      have haccnone' : ∀ k ∈ mapKeys m',
          jsLookup (jsInsertKey accM k₀ (ts₀.map (enrichGene details))) k = none ∧
          jsLookup (jsInsertKey accS k₀ (enrichGene details sg)) k = none := by
        intro k hk
        have hkk₀ : k ≠ k₀ := fun he => hk₀notin (he ▸ hk)
        have horig := haccnone k
          (by simp only [mapKeys, List.map_cons]; exact List.mem_cons_of_mem _ hk)
        rw [jsLookup_insert_ne _ _ _ _ hkk₀, jsLookup_insert_ne _ _ _ _ hkk₀]
        exact horig
      obtain ⟨em, es, hrun, hout, hin⟩ := ih _ _ hall' hnodup' haccnone'
      refine ⟨em, es, ?_, ?_, ?_⟩
      · rw [List.foldlM_cons, hstep]
        simpa using hrun
      · intro k hk
        have hkk₀ : k ≠ k₀ := by
          intro he
          exact hk (he ▸ hk₀mem)
        have hk' : k ∉ mapKeys m' := by
          intro hkm
          exact hk (by simp only [mapKeys, List.map_cons]; exact List.mem_cons_of_mem _ hkm)
        obtain ⟨h1, h2⟩ := hout k hk'
        rw [h1, h2, jsLookup_insert_ne _ _ _ _ hkk₀, jsLookup_insert_ne _ _ _ _ hkk₀]
        exact ⟨rfl, rfl⟩
      · intro k ts hts
        by_cases hkk₀ : k = k₀
        · subst hkk₀
          simp only [jsLookup, if_pos rfl] at hts
          obtain rfl : ts₀ = ts := by injection hts
          constructor
          · rintro ⟨t, htmem, htmatch⟩
            have := List.all_eq_true.mp hneed t htmem
            simp only [decide_eq_true_eq] at this
            exact absurd htmatch this
          · intro _
            obtain ⟨h1, h2⟩ := hout k hk₀notin
            rw [h1, h2, jsLookup_insert_self, jsLookup_insert_self]
            exact ⟨rfl, by simp⟩
        · have hkk₀' : ¬ (k₀ = k) := fun h => hkk₀ h.symm
          simp only [jsLookup, if_neg hkk₀'] at hts
          exact hin k ts hts
    · -- pass-through path
      have hstep : enrichMapStep details sources false (accM, accS) (k₀, ts₀) =
          .ok (jsInsertKey accM k₀ ts₀, accS) := by
        have hneedf : (ts₀.all fun target => decide (target.name.jsLower ≠ k₀.jsLower)) = false := by
          revert hneed
          cases ts₀.all fun target => decide (target.name.jsLower ≠ k₀.jsLower) <;> simp
        simp only [enrichMapStep]
        rw [hsg]
        dsimp only
        rw [Bool.false_or, hneedf]
        rfl
      have haccnone' : ∀ k ∈ mapKeys m',
          jsLookup (jsInsertKey accM k₀ ts₀) k = none ∧ jsLookup accS k = none := by
        intro k hk
        have hkk₀ : k ≠ k₀ := fun he => hk₀notin (he ▸ hk)
        have horig := haccnone k
          (by simp only [mapKeys, List.map_cons]; exact List.mem_cons_of_mem _ hk)
        rw [jsLookup_insert_ne _ _ _ _ hkk₀]
        exact horig
      obtain ⟨em, es, hrun, hout, hin⟩ := ih _ _ hall' hnodup' haccnone'
      refine ⟨em, es, ?_, ?_, ?_⟩
      · rw [List.foldlM_cons, hstep]
        simpa using hrun
      · intro k hk
        have hkk₀ : k ≠ k₀ := by
          intro he
          exact hk (he ▸ hk₀mem)
        have hk' : k ∉ mapKeys m' := by
          intro hkm
          exact hk (by simp only [mapKeys, List.map_cons]; exact List.mem_cons_of_mem _ hkm)
        obtain ⟨h1, h2⟩ := hout k hk'
        rw [h1, h2, jsLookup_insert_ne _ _ _ _ hkk₀]
        exact ⟨rfl, rfl⟩
      · intro k ts hts
        by_cases hkk₀ : k = k₀
        · subst hkk₀
          simp only [jsLookup, if_pos rfl] at hts
          obtain rfl : ts₀ = ts := by injection hts
          constructor
          · intro _
            obtain ⟨h1, h2⟩ := hout k hk₀notin
            rw [h1, h2, jsLookup_insert_self]
            refine ⟨rfl, ?_⟩
            exact (haccnone k hk₀mem).2
          · intro hforall
            exfalso
            apply hneed
            refine List.all_eq_true.mpr ?_
            intro t htmem
            simpa using hforall t htmem
        · have hkk₀' : ¬ (k₀ = k) := fun h => hkk₀ h.symm
          simp only [jsLookup, if_neg hkk₀'] at hts
          exact hin k ts hts

/-! ## Claim C1 -/

/-- C1, counterexample: the claim says a queried source gene with zero
matching rows after alias filtering is *not a key* of the map returned by
`getOrthologMap`.  Querying RAD51 against a result set whose only row is
discarded by alias filtering leaves "RAD51" as a key, bound to the empty
list, so "gene not found" is not observable as absence of the key. -/
theorem C1_counterexample :
    jsLookup (getOrthologMap ["RAD51"] radJson).orthologMap "RAD51" = some [] ∧
    "RAD51" ∈ mapKeys (getOrthologMap ["RAD51"] radJson).orthologMap := by
  decide

/-- C1, amended: a queried source gene none of whose rows resolve to a
case-insensitive match remains a key of the map returned by
`getOrthologMap`, bound to the empty candidate list ("gene found nothing"
is observable as an empty list, not as absence of the key). -/
theorem C1_gene_without_match_keeps_empty_list (genes : List String)
    (json : SparqlJson) (g : String) (hg : g ∈ genes)
    (hrows : ∀ r ∈ json.results.bindings, ∀ S,
      resolveSource genes r.gene_s_name = some S → S.jsLower ≠ g.jsLower) :
    jsLookup (getOrthologMap genes json).orthologMap g = some [] := by
  unfold getOrthologMap
  have hinit : jsLookup (initState genes).orthologMap g = some [] :=
    jsLookup_foldl_insert [] genes [] g (Or.inl hg)
  exact foldl_preserve (P := fun s => jsLookup s.orthologMap g = some [])
    (processResult genes) json.results.bindings
    (fun s x hx hs => lookup_nil_processResult genes s x g (hrows x hx) hs) _ hinit

theorem C1_witness :
    ("A" ∈ ["A", "B"]) ∧
    jsLookup (getOrthologMap ["A", "B"] srcBJson).orthologMap "A" = some [] := by
  refine ⟨by decide, C1_gene_without_match_keeps_empty_list ["A", "B"] srcBJson "A"
    (by decide) ?_⟩
  intro r hr S hS
  have hr' : r = rowSrcB := by simpa [srcBJson] using hr
  subst hr'
  have hres : resolveSource ["A", "B"] rowSrcB.gene_s_name = some "B" := by decide
  rw [hres] at hS
  obtain rfl : "B" = S := by injection hS
  decide

/-! ## Claim C3 -/

/-- C3, counterexample: the claim says no two distinct keys of the returned
map are ever case-insensitively equal.  A query list that itself contains
two case-variants with no matching rows keeps both as keys. -/
theorem C3_counterexample :
    "MTOR" ∈ mapKeys (getOrthologMap ["MTOR", "Mtor"]
      { results := { bindings := [] } }).orthologMap ∧
    "Mtor" ∈ mapKeys (getOrthologMap ["MTOR", "Mtor"]
      { results := { bindings := [] } }).orthologMap ∧
    "MTOR" ≠ "Mtor" ∧ "MTOR".jsLower = "Mtor".jsLower := by
  decide

/-- C3, amended: provided the original query list contains no two distinct
case-insensitively equal entries, a single pass of `getOrthologMap` never
produces two distinct keys that are equal case-insensitively. -/
theorem C3_keys_ci_distinct (genes : List String) (json : SparqlJson)
    (hg : ∀ g ∈ genes, ∀ g' ∈ genes, g.jsLower = g'.jsLower → g = g') :
    ∀ k ∈ mapKeys (getOrthologMap genes json).orthologMap,
      ∀ k' ∈ mapKeys (getOrthologMap genes json).orthologMap,
      k.jsLower = k'.jsLower → k = k' :=
  (wfci_getOrthologMap genes json hg).2

theorem C3_witness :
    (∀ g ∈ ["mtor"], ∀ g' ∈ ["mtor"], g.jsLower = g'.jsLower → g = g') ∧
    (∀ k ∈ mapKeys (getOrthologMap ["mtor"] mtorJson).orthologMap,
      ∀ k' ∈ mapKeys (getOrthologMap ["mtor"] mtorJson).orthologMap,
      k.jsLower = k'.jsLower → k = k') :=
  ⟨by decide, C3_keys_ci_distinct ["mtor"] mtorJson (by decide)⟩

/-! ## Claim C4 -/

/-- C4, counterexample: the claim says no source key's candidate list holds
two entries with case-insensitively equal names.  Two rows whose target
names differ only in case are both kept, because the seen-name check
(`includes`) is case-sensitive. -/
theorem C4_counterexample :
    jsLookup (getOrthologMap ["A"] abJson).orthologMap "A" =
      some [{ name := "ABc", id := "10090_0:0002" },
            { name := "abc", id := "10090_0:0003" }] ∧
    ("ABc" : String) ≠ "abc" ∧ "ABc".jsLower = "abc".jsLower := by
  decide

/-- C4, amended: in the map returned by `getOrthologMap`, no source key's
candidate list contains two entries with identical (case-sensitively equal)
names — the deduplication is exact-match, not case-insensitive. -/
theorem C4_target_names_nodup (genes : List String) (json : SparqlJson) :
    ∀ k l, jsLookup (getOrthologMap genes json).orthologMap k = some l →
      (l.map Gene.name).Nodup := by
  intro k l hkl
  have hwf := wf_getOrthologMap genes json
  exact hwf.seenNodup k _ (hwf.seen_eq k l hkl)

theorem C4_witness :
    jsLookup (getOrthologMap ["A"] abJson).orthologMap "A" =
      some [{ name := "ABc", id := "10090_0:0002" },
            { name := "abc", id := "10090_0:0003" }] ∧
    (([{ name := "ABc", id := "10090_0:0002" },
       { name := "abc", id := "10090_0:0003" }] : List Gene).map Gene.name).Nodup :=
  ⟨by decide, C4_target_names_nodup ["A"] abJson "A" _ (by decide)⟩

/-! ## Claim C5 -/

/-- C5: for a semicolon-joined target name whose aliases are all
non-numeric, the claim (and the code's own comment, "Use the shorter name of
the two") says the shorter alias is selected.  The comparator
`(a, b) => a.length < b.length` returns a boolean, which sort coerces to
`1`/`0` — never a negative number — so TimSort detects a single ascending
run and leaves the array untouched: `splitName.sort(...)[0]` is simply the
first alias.  On "CDE;AB" the code selects "CDE", not the shorter "AB"; on
"AB;CDE" it agrees with the claim only because the shorter alias happens to
come first. -/
theorem C5_first_alias_selected :
    isNumeric "CDE" = false ∧ isNumeric "AB" = false ∧
    selectTargetName "CDE;AB" = "CDE" ∧ selectTargetName "AB;CDE" = "AB" := by
  decide

/-! ## Claim C7 -/

/-- C7, counterexample: the claim says `enrichGene` never overwrites an
already-present field with null or undefined.  Enriching a gene that already
has an amino-acid count with a detail record lacking one overwrites the
count with `undefined` (the assignments to `aas`, `exons` and `domains` are
unconditional). -/
theorem C7_counterexample :
    geneAasW.aas = some 5 ∧ (enrichGene emptyDetails geneAasW).aas = none := by
  decide

/-- C7, amended: `enrichGene` is idempotent (applying it twice with the same
detail record equals applying it once), but not additive: it assigns `aas`,
`exons` and `domains` unconditionally from the detail record (possibly to
`undefined`), while `ensemblId` and `ncbiGeneId` are assigned only when the
detail record carries the corresponding cross-reference list and keep their
previous value otherwise. -/
theorem C7_enrich_idempotent_not_additive (details : String → OgDetails) (g : Gene) :
    enrichGene details (enrichGene details g) = enrichGene details g ∧
    (enrichGene details g).aas = (details g.id).aas ∧
    (enrichGene details g).exons = (details g.id).exons ∧
    (enrichGene details g).domains = (details g.id).interpro ∧
    (enrichGene details g).ensemblId =
      (match (details g.id).ensembl with
       | some l => l.head?
       | none => g.ensemblId) ∧
    (enrichGene details g).ncbiGeneId =
      (match (details g.id).entrez with
       | some l => l.head?
       | none => g.ncbiGeneId) := by
  unfold enrichGene
  cases he : (details g.id).ensembl <;> cases hz : (details g.id).entrez <;>
    simp [he, hz]

/-! ## Claim C9 -/

/-- C9: for a hit whose `genomic_pos` is a list of placements,
`parseAnnotFromMgiGene` discards every placement whose chromosome contains an
underscore, keeps the first survivor, and forms the location string
`"<chromosome>:<start>-<end>"` from it. -/
theorem C9_alternative_loci_filtered (gene : MgiHit) (ps : List GPos)
    (p : GPos) (rest : List GPos)
    (hpos : gene.genomic_pos = some (.many ps))
    (hfilter : ps.filter (fun pos => ¬ pos.chr.jsIncludes '_') = p :: rest) :
    parseAnnotFromMgiGene gene = some
      { name := gene.symbol, chr := p.chr, start := p.start, stop := p.stop,
        id := p.ensemblgene,
        location := p.chr ++ ":" ++ toString p.start ++ "-" ++ toString p.stop } := by
  unfold parseAnnotFromMgiGene
  rw [hpos]
  dsimp only
  rw [hfilter]
  rfl

theorem C9_witness :
    ptprcHit.genomic_pos = some (.many [ptprcAltPos, ptprcMainPos]) ∧
    ([ptprcAltPos, ptprcMainPos].filter (fun pos => ¬ pos.chr.jsIncludes '_') =
      [ptprcMainPos]) ∧
    parseAnnotFromMgiGene ptprcHit = some
      { name := some "PTPRC", chr := "1", start := 198638457, stop := 198757476,
        id := some "ENSG00000081237", location := "1:198638457-198757476" } := by
  refine ⟨by decide, by decide, ?_⟩
  have h := C9_alternative_loci_filtered ptprcHit [ptprcAltPos, ptprcMainPos]
    ptprcMainPos [] (by decide) (by decide)
  rw [h]
  decide

/-! ## Claim C2 -/

/-- C2, counterexample: the claim says keys are case-normalized to the exact
character form supplied in the original query, the row's list being merged
*into the originally-cased key*.  Querying "mtor" against a row whose source
name is "MTOR" produces a map keyed by "MTOR" — the row's casing — and the
original key "mtor" is deleted. -/
theorem C2_counterexample :
    jsLookup (getOrthologMap ["mtor"] mtorJson).orthologMap "mtor" = none ∧
    jsLookup (getOrthologMap ["mtor"] mtorJson).orthologMap "MTOR" =
      some [{ name := "Mtor", id := "10090_0:004b2f" }] := by
  decide

/-- C2, amended: keys are case-normalized to the character form of the row's
resolved source name: when a row's resolved source name `S` differs in case
from the original query's key `g` but matches case-insensitively, the
accumulating target list of `g` is copied over to the key `S`, the key `g`
is deleted, and the row's target candidate is appended under `S` unless its
name was already seen. -/
theorem C2_canonicalize_to_row_case (genes : List String) (st : OrthoState)
    (r : SparqlResult) (g S : String) (ts : List Gene)
    (hres : resolveSource genes r.gene_s_name = some S)
    (hg : g ∈ genes) (hne : g ≠ S) (hlow : g.jsLower = S.jsLower)
    (huniq : ∀ g' ∈ genes, g'.jsLower = S.jsLower → g' = g)
    (hmap : jsLookup st.orthologMap g = some ts)
    (hseen : jsLookup st.seenTargetNames g = some (ts.map Gene.name))
    (hndM : (mapKeys st.orthologMap).Nodup)
    (hndS : (mapKeys st.seenTargetNames).Nodup) :
    jsLookup (processResult genes st r).orthologMap g = none ∧
    jsLookup (processResult genes st r).orthologMap S =
      some (if (ts.map Gene.name).contains (selectTargetName r.gene_t_name) then ts
        else ts ++ [{ name := selectTargetName r.gene_t_name,
                      id := getOrthoDBId r.gene_t }]) := by
  have hfold := mergeFold_eval S g ts (ts.map Gene.name) genes st hg hne hlow huniq
    hmap hseen hndM hndS
  have hSg : S ≠ g := Ne.symm hne
  have hmapS : jsLookup (jsErase (jsInsertKey st.orthologMap S ts) g) S = some ts := by
    rw [jsLookup_erase_ne _ _ _ hSg, jsLookup_insert_self]
  have hmapg : jsLookup (jsErase (jsInsertKey st.orthologMap S ts) g) g = none :=
    jsLookup_erase_self _ _ (nodup_mapKeys_insert _ _ _ hndM)
  have hseenS : jsLookup (jsErase (jsInsertKey st.seenTargetNames S
      (ts.map Gene.name)) g) S = some (ts.map Gene.name) := by
    rw [jsLookup_erase_ne _ _ _ hSg, jsLookup_insert_self]
  unfold processResult
  rw [hres]
  dsimp only
  rw [hfold]
  unfold pushTarget setSource
  dsimp only
  rw [hseenS]
  simp only [Option.getD_some, Option.isSome_some]
  by_cases hct : (ts.map Gene.name).contains (selectTargetName r.gene_t_name) = true
  · rw [if_neg (fun hcond => hcond.2 hct)]
    dsimp only
    rw [if_pos hct]
    exact ⟨hmapg, hmapS⟩
  · rw [if_pos ⟨trivial, hct⟩]
    dsimp only
    constructor
    · rw [jsLookup_insert_ne _ _ _ _ hne]
      exact hmapg
    · rw [jsLookup_insert_self, hmapS, Option.getD_some, if_neg hct]

theorem C2_witness :
    jsLookup (processResult ["mtor"] (initState ["mtor"]) mtorRow).orthologMap
      "mtor" = none ∧
    jsLookup (processResult ["mtor"] (initState ["mtor"]) mtorRow).orthologMap
      "MTOR" = some [{ name := "Mtor", id := "10090_0:004b2f" }] := by
  have h := C2_canonicalize_to_row_case ["mtor"] (initState ["mtor"]) mtorRow
    "mtor" "MTOR" [] (by decide) (by decide) (by decide) (by decide) (by decide)
    (by decide) (by decide) (by decide) (by decide)
  refine ⟨h.1, ?_⟩
  rw [h.2]
  decide

/-! ## Claim C6 -/

/-- C8: `fetchLocations` treats the MyGene.info response as insufficient
exactly when it has fewer hits than requested names, or some hit lacks a
genomic position, or some hit lacks both a name and an `_id`; and on an
insufficient response it raises the forced-enrichment signal (the
`'Enrichment needed'` error) when the inputs are plain names, while inputs
that all carry NCBI gene ids are re-queried through the EUtils fallback
provider with those ids. -/
theorem C8_insufficiency_and_fallback (genes : List GeneInput) (hits : List MgiHit)
    (hne : genes ≠ [])
    (hparse : ∀ g ∈ hits, g.genomic_pos.isSome → (parseAnnotFromMgiGene g).isSome) :
    ((∃ l, fetchLocations genes hits = LocObs.ok l) ↔
      ¬ (hits.length < genes.length ∨ ∃ g ∈ hits,
          g.genomic_pos.isNone ∨ (g.name.isNone ∧ g.mgiId.isNone))) ∧
    ((hits.length < genes.length ∨ ∃ g ∈ hits,
        g.genomic_pos.isNone ∨ (g.name.isNone ∧ g.mgiId.isNone)) →
      ((∀ gi ∈ genes, isStrInput gi = true) →
        fetchLocations genes hits = LocObs.errEnrichmentNeeded) ∧
      ((∀ gi ∈ genes, isStrInput gi = false ∧ (inputNcbiId gi).isSome) →
        fetchLocations genes hits = LocObs.fallbackEUtils (genes.map inputNcbiId))) := by
  obtain ⟨acc', hacc⟩ := fetchFold_eval hits (decide (hits.length < genes.length)) [] hparse
  have hBiff : (decide (hits.length < genes.length) || hits.any fun g =>
      g.genomic_pos.isNone || (g.name.isNone && g.mgiId.isNone)) = true ↔
      (hits.length < genes.length ∨ ∃ g ∈ hits,
        g.genomic_pos.isNone ∨ (g.name.isNone ∧ g.mgiId.isNone)) := by
    simp [List.any_eq_true]
  by_cases hB : (decide (hits.length < genes.length) || hits.any fun g =>
      g.genomic_pos.isNone || (g.name.isNone && g.mgiId.isNone)) = true
  · have hspec := hBiff.mp hB
    cases genes with
    | nil => exact absurd rfl hne
    | cons g0 rest =>
      cases g0 with
      | str s =>
        have hrun : fetchLocations (GeneInput.str s :: rest) hits =
            LocObs.errEnrichmentNeeded := by
          unfold fetchLocations
          rw [hacc]
          dsimp only
          rw [if_pos hB]
        refine ⟨⟨?_, fun hns => absurd hspec hns⟩, fun _ => ⟨fun _ => hrun, ?_⟩⟩
        · rintro ⟨l, hl⟩
          rw [hrun] at hl
          exact absurd hl (by simp)
        · intro hobj
          have h0 := (hobj (GeneInput.str s) (List.mem_cons_self _ _)).1
          simp [isStrInput] at h0
      | obj g =>
        by_cases hid : g.ncbiGeneId.isNone = true
        · have hrun : fetchLocations (GeneInput.obj g :: rest) hits =
              LocObs.errEnrichmentNeeded := by
            unfold fetchLocations
            rw [hacc]
            dsimp only
            rw [if_pos hB]
            rw [if_pos hid]
          refine ⟨⟨?_, fun hns => absurd hspec hns⟩, fun _ => ⟨?_, ?_⟩⟩
          · rintro ⟨l, hl⟩
            rw [hrun] at hl
            exact absurd hl (by simp)
          · intro hstr
            have h0 := hstr (GeneInput.obj g) (List.mem_cons_self _ _)
            simp [isStrInput] at h0
          · intro hobj
            have h0 := (hobj (GeneInput.obj g) (List.mem_cons_self _ _)).2
            simp [inputNcbiId, Option.isNone_iff_eq_none.mp hid] at h0
        · have hrun : fetchLocations (GeneInput.obj g :: rest) hits =
              LocObs.fallbackEUtils ((GeneInput.obj g :: rest).map inputNcbiId) := by
            unfold fetchLocations
            rw [hacc]
            dsimp only
            rw [if_pos hB]
            rw [if_neg hid]
          refine ⟨⟨?_, fun hns => absurd hspec hns⟩, fun _ => ⟨?_, fun _ => hrun⟩⟩
          · rintro ⟨l, hl⟩
            rw [hrun] at hl
            exact absurd hl (by simp)
          · intro hstr
            have h0 := hstr (GeneInput.obj g) (List.mem_cons_self _ _)
            simp [isStrInput] at h0
  · have hspec : ¬ (hits.length < genes.length ∨ ∃ g ∈ hits,
        g.genomic_pos.isNone ∨ (g.name.isNone ∧ g.mgiId.isNone)) :=
      fun hs => hB (hBiff.mpr hs)
    have hrun : fetchLocations genes hits = LocObs.ok acc' := by
      unfold fetchLocations
      rw [hacc]
      dsimp only
      rw [if_neg hB]
    exact ⟨⟨fun _ => hspec, fun _ => ⟨acc', hrun⟩⟩, fun hs => absurd hs hspec⟩

theorem C8_witness :
    (([GeneInput.str "A", GeneInput.str "B"] : List GeneInput) ≠ []) ∧
    ([hitOkW].length < ([GeneInput.str "A", GeneInput.str "B"] : List GeneInput).length) ∧
    fetchLocations [GeneInput.str "A", GeneInput.str "B"] [hitOkW] =
      LocObs.errEnrichmentNeeded := by
  refine ⟨by decide, by decide, ?_⟩
  exact ((C8_insufficiency_and_fallback [GeneInput.str "A", GeneInput.str "B"] [hitOkW]
    (by decide) (by decide)).2 (Or.inl (by decide))).1 (by decide)

/-! ## Claim C10 -/

/-- C10: with `forceEnrich` false, a source key that has at least one target
whose name case-insensitively equals it is passed through `enrichMap`
unenriched and receives no entry in the returned sources registry; the
registry's keys are exactly the source keys that actually underwent
enrichment (those present in the map all of whose targets differ from the
source name case-insensitively).  The hypotheses ask for unique map keys and
a registry entry for every key — `enrichMap` rejects (the `Promise.all`
throws) otherwise. -/
theorem C10_skip_enrichment_registry (details : String → OgDetails)
    (m : List (String × List Gene)) (sources : List (String × Gene))
    (hnodup : (mapKeys m).Nodup)
    (hall : ∀ k ∈ mapKeys m, (jsLookup sources k).isSome) :
    ∃ em es, enrichMap details m sources false = Except.ok (em, es) ∧
      (∀ k ts, jsLookup m k = some ts →
        (∃ t ∈ ts, t.name.jsLower = k.jsLower) →
        jsLookup em k = some ts ∧ jsLookup es k = none) ∧
      (∀ k, (jsLookup es k).isSome ↔
        ∃ ts, jsLookup m k = some ts ∧ ∀ t ∈ ts, t.name.jsLower ≠ k.jsLower) := by
  obtain ⟨em, es, hrun, hout, hin⟩ := enrichMap_fold details sources m [] []
    hall hnodup (fun k _ => ⟨rfl, rfl⟩)
  refine ⟨em, es, hrun, fun k ts hts hmatch => (hin k ts hts).1 hmatch,
    fun k => ⟨?_, ?_⟩⟩
  · intro hsome
    by_cases hk : k ∈ mapKeys m
    · obtain ⟨ts, hts⟩ := Option.isSome_iff_exists.mp ((jsLookup_isSome_iff _ _).mpr hk)
      by_cases hmatch : ∃ t ∈ ts, t.name.jsLower = k.jsLower
      · obtain ⟨_, h2⟩ := (hin k ts hts).1 hmatch
        rw [h2] at hsome
        simp at hsome
      · push_neg at hmatch
        exact ⟨ts, hts, hmatch⟩
    · obtain ⟨_, h2⟩ := hout k hk
      rw [h2] at hsome
      simp [jsLookup] at hsome
  · rintro ⟨ts, hts, hforall⟩
    exact ((hin k ts hts).2 hforall).2

theorem C10_witness :
    ((mapKeys c10Map).Nodup) ∧
    (∀ k ∈ mapKeys c10Map, (jsLookup c10Sources k).isSome) ∧
    ∃ em es, enrichMap c10Details c10Map c10Sources false = Except.ok (em, es) ∧
      (∀ k ts, jsLookup c10Map k = some ts →
        (∃ t ∈ ts, t.name.jsLower = k.jsLower) →
        jsLookup em k = some ts ∧ jsLookup es k = none) ∧
      (∀ k, (jsLookup es k).isSome ↔
        ∃ ts, jsLookup c10Map k = some ts ∧ ∀ t ∈ ts, t.name.jsLower ≠ k.jsLower) :=
  ⟨by decide, by decide,
    C10_skip_enrichment_registry c10Details c10Map c10Sources (by decide) (by decide)⟩

end Homology
